import Mathlib

/-!
Verification development for the `stock-webhook` repository.

The ingestion-and-retention store is embedded shallowly:
* filenames and strings are `List Char` (`Name`),
* byte streams are `List Nat` chunk lists,
* the store directory is an association list from names to file data,
* the fallible steps of the POST handler (`handlePostWebhook`) are driven by
  an explicit `Fault` parameter selecting which I/O operation, if any, fails.

Every definition mirrors the corresponding JavaScript in `store.js` /
`stockhook.js`; the SHA-256 digest and `JSON.parse` are kept abstract as
function parameters (`h`, `jparse`) since only *which bytes* they are applied
to matters for the claims.
-/

namespace Stockhook

abbrev Bytes := List Nat
abbrev Name := List Char

/-- JS `String.prototype.trim` whitespace (ASCII portion, which covers every
identifier and header produced by this program). -/
def isWs (c : Char) : Bool :=
  c = ' ' ∨ c = '\t' ∨ c = '\n' ∨ c = '\r' ∨ c = '\x0b' ∨ c = '\x0c'

/-- JS `s.trim()`: strip leading and trailing whitespace. -/
def trimName (s : Name) : Name :=
  ((s.dropWhile isWs).reverse.dropWhile isWs).reverse

/-- JS `s.includes(sub)` as a decidable infix test. -/
def hasSub (sub s : Name) : Bool := decide (sub <:+: s)

/-- JS `s.includes(c)` for a single character. -/
def hasChar (c : Char) (s : Name) : Bool := decide (c ∈ s)

/-- JS `s.endsWith(suf)`. -/
def endsWith (suf s : Name) : Bool := decide (suf <:+ s)

/-- Regex `/^\d+$/` test used on the Content-Length header. -/
def allDigits (s : Name) : Bool := s.all (fun c => c.isDigit)

/-- JS `Number.parseInt(s, 10)` on an all-digit string. -/
def natOfDigits (s : Name) : Nat :=
  s.foldl (fun acc c => acc * 10 + (c.toNat - '0'.toNat)) 0

/-- The `invalidId` check from `stockhook.js`: trims, rejects empty names and names
containing `..`, `/` or `\`. -/
def invalidId (name : Name) : Bool :=
  let s := trimName name
  if s = [] then true
  else if hasSub ['.', '.'] s then true
  else if hasChar '/' s ∨ hasChar '\\' s then true
  else false

/-- Fuel-driven worker for the strict UTF-8 decoder (each step consumes at
least one byte, so `fuel = length` always suffices). -/
def decodeUtf8StrictFuel : Nat → Bytes → Option (List Char)
  | _, [] => some []
  | 0, _ :: _ => none
  | fuel + 1, b :: rest =>
    if b < 0x80 then
      (decodeUtf8StrictFuel fuel rest).map (Char.ofNat b :: ·)
    else if 0xC2 ≤ b ∧ b ≤ 0xDF then
      match rest with
      | c1 :: rest2 =>
        if 0x80 ≤ c1 ∧ c1 ≤ 0xBF then
          (decodeUtf8StrictFuel fuel rest2).map
            (Char.ofNat ((b - 0xC0) * 0x40 + (c1 - 0x80)) :: ·)
        else none
      | [] => none
    else if 0xE0 ≤ b ∧ b ≤ 0xEF then
      match rest with
      | c1 :: c2 :: rest2 =>
        let lo1 := if b = 0xE0 then 0xA0 else 0x80
        let hi1 := if b = 0xED then 0x9F else 0xBF
        if (lo1 ≤ c1 ∧ c1 ≤ hi1) ∧ (0x80 ≤ c2 ∧ c2 ≤ 0xBF) then
          (decodeUtf8StrictFuel fuel rest2).map
            (Char.ofNat ((b - 0xE0) * 0x1000 + (c1 - 0x80) * 0x40 + (c2 - 0x80)) :: ·)
        else none
      | _ => none
    else if 0xF0 ≤ b ∧ b ≤ 0xF4 then
      match rest with
      | c1 :: c2 :: c3 :: rest2 =>
        let lo1 := if b = 0xF0 then 0x90 else 0x80
        let hi1 := if b = 0xF4 then 0x8F else 0xBF
        if (lo1 ≤ c1 ∧ c1 ≤ hi1) ∧ (0x80 ≤ c2 ∧ c2 ≤ 0xBF) ∧ (0x80 ≤ c3 ∧ c3 ≤ 0xBF) then
          (decodeUtf8StrictFuel fuel rest2).map
            (Char.ofNat ((b - 0xF0) * 0x40000 + (c1 - 0x80) * 0x1000 +
              (c2 - 0x80) * 0x40 + (c3 - 0x80)) :: ·)
        else none
      | _ => none
    else none

/-- Strict decoder `decodeUtf8Strict` from `store.js`: `TextDecoder('utf-8', {fatal: true})`.
Returns `none` exactly when the bytes are not valid UTF-8. -/
def decodeUtf8Strict (l : Bytes) : Option (List Char) :=
  decodeUtf8StrictFuel l.length l

/-- Fuel-driven worker for the lossy UTF-8 decoder. -/
def decodeUtf8LenientFuel : Nat → Bytes → List Char
  | _, [] => []
  | 0, _ :: _ => []
  | fuel + 1, b :: rest =>
    if b < 0x80 then Char.ofNat b :: decodeUtf8LenientFuel fuel rest
    else if 0xC2 ≤ b ∧ b ≤ 0xDF then
      match rest with
      | c1 :: rest2 =>
        if 0x80 ≤ c1 ∧ c1 ≤ 0xBF then
          Char.ofNat ((b - 0xC0) * 0x40 + (c1 - 0x80)) :: decodeUtf8LenientFuel fuel rest2
        else Char.ofNat 0xFFFD :: decodeUtf8LenientFuel fuel (c1 :: rest2)
      | [] => [Char.ofNat 0xFFFD]
    else if 0xE0 ≤ b ∧ b ≤ 0xEF then
      match rest with
      | c1 :: c2 :: rest2 =>
        let lo1 := if b = 0xE0 then 0xA0 else 0x80
        let hi1 := if b = 0xED then 0x9F else 0xBF
        if (lo1 ≤ c1 ∧ c1 ≤ hi1) ∧ (0x80 ≤ c2 ∧ c2 ≤ 0xBF) then
          Char.ofNat ((b - 0xE0) * 0x1000 + (c1 - 0x80) * 0x40 + (c2 - 0x80)) ::
            decodeUtf8LenientFuel fuel rest2
        else Char.ofNat 0xFFFD :: decodeUtf8LenientFuel fuel (c1 :: c2 :: rest2)
      | _ => [Char.ofNat 0xFFFD]
    else if 0xF0 ≤ b ∧ b ≤ 0xF4 then
      match rest with
      | c1 :: c2 :: c3 :: rest2 =>
        let lo1 := if b = 0xF0 then 0x90 else 0x80
        let hi1 := if b = 0xF4 then 0x8F else 0xBF
        if (lo1 ≤ c1 ∧ c1 ≤ hi1) ∧ (0x80 ≤ c2 ∧ c2 ≤ 0xBF) ∧ (0x80 ≤ c3 ∧ c3 ≤ 0xBF) then
          Char.ofNat ((b - 0xF0) * 0x40000 + (c1 - 0x80) * 0x1000 +
            (c2 - 0x80) * 0x40 + (c3 - 0x80)) :: decodeUtf8LenientFuel fuel rest2
        else Char.ofNat 0xFFFD :: decodeUtf8LenientFuel fuel (c1 :: c2 :: c3 :: rest2)
      | _ => [Char.ofNat 0xFFFD]
    else Char.ofNat 0xFFFD :: decodeUtf8LenientFuel fuel rest

/-- Lossy decode `buf.toString('utf8')` (WHATWG): like the strict decoder but
an undecodable position emits U+FFFD and resynchronises. -/
def decodeUtf8Lenient (l : Bytes) : List Char :=
  decodeUtf8LenientFuel l.length l

def b64Alphabet : List Char :=
  "ABCDEFGHIJKLMNOPQRSTUVWXYZabcdefghijklmnopqrstuvwxyz0123456789+/".toList

def b64Char (n : Nat) : Char := b64Alphabet.getD n 'A'

/-- Base64 encoding, `buf.toString('base64')`. -/
def b64Encode : Bytes → List Char
  | [] => []
  | [a] => [b64Char (a / 4), b64Char (a % 4 * 16), '=', '=']
  | [a, b] => [b64Char (a / 4), b64Char (a % 4 * 16 + b / 16), b64Char (b % 16 * 4), '=']
  | a :: b :: c :: rest =>
    b64Char (a / 4) :: b64Char (a % 4 * 16 + b / 16) ::
      b64Char (b % 16 * 4 + c / 64) :: b64Char (c % 64) :: b64Encode rest

/-! ### Record documents and the store directory -/

/-- Extension `.json`, the record-document filename suffix. -/
def jsonExt : Name := ".json".toList

/-- Extension `.body`, the blob filename suffix. -/
def bodyExt : Name := ".body".toList

/-- Extension `.tmp`, appended to form the temporary sibling path. -/
def tmpExt : Name := ".tmp".toList

/-- The `body_json` / `body_text` / `body_b64` triple of the record: the code
sets at most one of them to a non-null value. `J` is the type of values
produced by `JSON.parse`. -/
inductive DecodedVal (J : Type) where
  | none : DecodedVal J
  | json (j : J) : DecodedVal J
  | text (t : List Char) : DecodedVal J
  | b64 (t : List Char) : DecodedVal J
  deriving DecidableEq

/-- The fields of the Record JSON document written by `handlePostWebhook`
that the store logic reads back (timestamps, remote address, user agent and
path are carried along but never branched on, and are omitted). -/
structure RecordDoc (J : Type) where
  contentType : Name
  bodyFile : Name
  bodySize : Nat
  bodySha : Name
  previewTrunc : Bool
  decoded : DecodedVal J
  deriving DecidableEq

/-- Contents of one file in the store directory: a raw body blob, a record
JSON document, or bytes that do not parse as a record (`junk`). -/
inductive FData (J : Type) where
  | bytes (b : Bytes) : FData J
  | doc (r : RecordDoc J) : FData J
  | junk : FData J
  deriving DecidableEq

/-- The store directory: an association list from filename to contents.
Names are unique; `writeOver` replaces, `unlink` removes. -/
structure FS (J : Type) where
  files : List (Name × FData J)
  deriving DecidableEq

def FS.lookup (fs : FS J) (n : Name) : Option (FData J) :=
  (fs.files.find? (fun p => p.1 = n)).map (·.2)

def FS.writeOver (fs : FS J) (n : Name) (c : FData J) : FS J :=
  ⟨(n, c) :: fs.files.filter (fun p => p.1 ≠ n)⟩

def FS.unlink (fs : FS J) (n : Name) : FS J :=
  ⟨fs.files.filter (fun p => p.1 ≠ n)⟩

/-- Rename `fs.promises.rename(src, dst)` for an existing source (the handler only
renames files it has just created); overwrites the destination. -/
def FS.rename (fs : FS J) (src dst : Name) : FS J :=
  match fs.lookup src with
  | some c => (fs.unlink src).writeOver dst c
  | none => fs

def FS.empty : FS J := ⟨[]⟩

/-- Names of record documents as listed by `readdir(...).filter(endsWith('.json'))`,
in directory (storage) order. -/
def recordNames (fs : FS J) : List Name :=
  (fs.files.map Prod.fst).filter (fun n => endsWith jsonExt n)

/-! ### `writeBodyToFile` — the streaming tap from `store.js` -/

inductive StreamErr where
  /-- Error `err.code === 'PAYLOAD_TOO_LARGE'`: running count exceeded `maxBytes`. -/
  | payloadTooLarge
  /-- Error `err.code === 'TOO_MUCH_DATA'`: running count exceeded the declared length. -/
  | tooMuchData
  /-- Thrown `new Error('invalid maxBytes')`. -/
  | invalidMaxBytes
  /-- client disconnect / transport error terminating the pipeline. -/
  | clientAbort
  /-- Error `EEXIST` from `createWriteStream(outPath, { flags: 'wx' })`. -/
  | tempExists
  deriving DecidableEq

/-- Mutable state of the `Transform` tap in `writeBodyToFile`. -/
structure TapState where
  written : Nat
  hashed : Bytes
  preview : Bytes
  previewBytes : Nat
  out : Bytes
  deriving DecidableEq

def initTap : TapState := ⟨0, [], [], 0, []⟩

/-- One `transform(chunk, _, callback)` call of the tap. -/
def tapChunk (maxBytes : Nat) (expected : Option Nat) (previewMax : Nat)
    (st : TapState) (chunk : Bytes) : Except StreamErr TapState :=
  if maxBytes < st.written + chunk.length then .error .payloadTooLarge
  else if expected.elim false (fun e => decide (e < st.written + chunk.length)) = true then
    .error .tooMuchData
  else
    -- `if (previewBytes < previewMax)` guards the copy into the preview
    -- buffer; once the buffer is full, zero further bytes are taken
    .ok { written := st.written + chunk.length
          hashed := st.hashed ++ chunk
          preview := st.preview ++
            chunk.take (if st.previewBytes < previewMax
              then min (previewMax - st.previewBytes) chunk.length else 0)
          previewBytes := st.previewBytes +
            (if st.previewBytes < previewMax
              then min (previewMax - st.previewBytes) chunk.length else 0)
          out := st.out ++ chunk }

/-- Run the tap over all delivered chunks. -/
def runTap (maxBytes : Nat) (expected : Option Nat) (previewMax : Nat) :
    TapState → List Bytes → Except StreamErr TapState
  | st, [] => .ok st
  | st, c :: rest =>
    match tapChunk maxBytes expected previewMax st c with
    | .error e => .error e
    | .ok st' => runTap maxBytes expected previewMax st' rest

structure WriteResult where
  written : Nat
  /-- the bytes fed into `hasher`; the digest is the abstract hash applied to these. -/
  hashedBytes : Bytes
  preview : Bytes
  /-- the bytes piped into `createWriteStream(outPath)`. -/
  fileBytes : Bytes
  deriving DecidableEq

/-- The model of `writeBodyToFile(req, outPath, options)`. `aborted` models the request
stream erroring (client disconnect) after delivering `chunks`. -/
def writeBody (maxBytes : Nat) (previewMax : Nat) (expected : Option Nat)
    (chunks : List Bytes) (aborted : Bool) : Except StreamErr WriteResult :=
  if maxBytes = 0 then .error .invalidMaxBytes
  else
    match runTap maxBytes expected previewMax initTap chunks with
    | .error e => .error e
    | .ok st =>
      if aborted then .error .clientAbort
      else .ok ⟨st.written, st.hashed, st.preview, st.out⟩

/-! ### Content-type sniffing (`handlePostWebhook` lines 125-143) -/

/-- Default `'application/octet-stream'`. -/
def defaultCt : Name := "application/octet-stream".toList

/-- Normalization `String(req.headers['content-type'] || '...').split(';')[0].trim() || '...'`. -/
def normCt (header : Option Name) : Name :=
  let raw := match header with
    | some s => if s = [] then defaultCt else s
    | none => defaultCt
  let t := trimName (raw.takeWhile (fun c => c ≠ ';'))
  if t = [] then defaultCt else t

def isJsonCt (ct : Name) : Bool :=
  ct = "application/json".toList ∨ ct = "text/json".toList

/-- The decoded-body computation of `handlePostWebhook`: `jparse` models
`JSON.parse` (`none` = throws). On a JSON content type, a failure of either
the strict decode or the parse falls back to the *lenient* UTF-8 decode of
the preview. -/
def sniff (jparse : List Char → Option J) (ct : Name) (preview : Bytes) : DecodedVal J :=
  if isJsonCt ct ∧ preview ≠ [] then
    -- an exception from either `decodeUtf8Strict` or `JSON.parse` lands in the
    -- same catch block, which stores the lenient decode as `body_text`
    match (decodeUtf8Strict preview).bind jparse with
    | some j => .json j
    | none => .text (decodeUtf8Lenient preview)
  else if preview ≠ [] then
    match decodeUtf8Strict preview with
    | some s => .text s
    | none => .b64 (b64Encode preview)
  else .none

/-- The sniffing chain as claim C2 words it: for JSON content types the
fallback is a *strict* decode into `decoded_text` and then `decoded_b64`.
(Spec-side definition, for comparison with `sniff` above.) -/
def sniffClaimC2 (jparse : List Char → Option J) (ct : Name) (preview : Bytes) :
    DecodedVal J :=
  if isJsonCt ct ∧ preview ≠ [] then
    match decodeUtf8Strict preview with
    | some s =>
      match jparse s with
      | some j => .json j
      | none => .text s
    | none => .b64 (b64Encode preview)
  else if preview ≠ [] then
    match decodeUtf8Strict preview with
    | some s => .text s
    | none => .b64 (b64Encode preview)
  else .none

/-! ### `enforceRetention` from `store.js` -/

/-- Sorting `names.sort().reverse()`: ascending sort then reverse. -/
def sortDesc (names : List Name) : List Name :=
  (List.insertionSort (· ≤ ·) names).reverse

/-- One unlink call issued by the eviction loop, tagged by which of the two
`unlink` sites in the loop body issued it. -/
structure UnlinkCall where
  name : Name
  isBlob : Bool
  deriving DecidableEq

/-- The `body_file` validation of the eviction loop body. -/
def blobNameBlocked (bodyName : Name) : Bool :=
  hasSub ['.', '.'] bodyName ∨ hasChar '/' bodyName ∨ hasChar '\\' bodyName

/-- Body of the `for (const recordName of stale)` loop: read `body_file`
(empty on parse failure), unlink the record document, then — only for a
non-empty reference free of `..`, `/` and `\` — unlink the blob. -/
def evictOne (acc : FS J × List UnlinkCall) (recordName : Name) :
    FS J × List UnlinkCall :=
  let (fs, calls) := acc
  let bodyName : Name :=
    match fs.lookup recordName with
    | some (.doc r) => trimName r.bodyFile
    | _ => []
  let fs := fs.unlink recordName
  let calls := calls ++ [⟨recordName, false⟩]
  if bodyName = [] then (fs, calls)
  else if blobNameBlocked bodyName then (fs, calls)
  else (fs.unlink bodyName, calls ++ [⟨bodyName, true⟩])

/-- Retention `enforceRetention(dir)` with `keep = maxRecords()`; also returns the list
of unlink calls it issued. -/
def enforceRetention (keep : Int) (fs : FS J) : FS J × List UnlinkCall :=
  if keep ≤ 0 then (fs, [])
  else
    let names := sortDesc (recordNames fs)
    let stale := names.drop keep.toNat
    stale.foldl evictOne (fs, [])

/-! ### `handlePostWebhook` -/

/-- Outcome of one POST, by response: `ok` is `200 ok <recordName>`. -/
inductive PostResult where
  /-- Response 400 `invalid content-length`. -/
  | badContentLength
  /-- Response 400 `empty body` from a declared length ≤ 0. -/
  | emptyBodyDeclared
  /-- Response 413 from a declared length above the limit. -/
  | tooLargeDeclared
  /-- Response 413 from the stream tap (`PAYLOAD_TOO_LARGE`). -/
  | payloadTooLarge
  /-- Response 400 `incomplete body` (length mismatch, disconnect, other stream error). -/
  | incompleteBody
  /-- Response 400 `empty body` after draining zero bytes. -/
  | emptyBody
  /-- Response 500: an exception escaped to the outer request handler. -/
  | serverError
  /-- Response 200. -/
  | ok
  deriving DecidableEq

/-- Which I/O operation of the post-stream phase fails, if any. Stream-phase
failures (size violations, disconnects) are expressed by the request itself. -/
inductive Fault where
  | none
  /-- The `rename(tmpBodyPath, bodyPath)` call throws. -/
  | blobRenameFail
  /-- The `writeFile(tmpRecordPath, ...)` call throws. -/
  | recordWriteFail
  /-- The `rename(tmpRecordPath, recordPath)` call throws. -/
  | recordRenameFail
  deriving DecidableEq

structure Req where
  /-- raw `content-length` header value, when present. -/
  clHeader : Option Name
  /-- raw `content-type` header value, when present. -/
  ctHeader : Option Name
  chunks : List Bytes
  /-- the request stream errors (disconnect) after delivering `chunks`. -/
  aborted : Bool

structure Cfg where
  /-- Config `maxBody()`. -/
  limit : Nat
  /-- Config `previewLimit()`. -/
  previewMax : Nat
  /-- Config `maxRecords()`. -/
  keep : Int

/-- Parse of the `content-length` header: `none` = regex `^\d+$` failed on
the trimmed value (400), `some e` = declared length. -/
def parseCl (h : Option Name) : Option (Option Nat) :=
  match h with
  | .none => some none
  | some s =>
    let t := trimName s
    if t ≠ [] ∧ allDigits t then some (some (natOfDigits t)) else none

/-- What a successful ingest published, recorded for the statements below. -/
structure PublishInfo (J : Type) where
  bodyName : Name
  recordName : Name
  content : Bytes
  preview : Bytes
  doc : RecordDoc J
  deriving DecidableEq

structure PostOut (J : Type) where
  result : PostResult
  fs : FS J
  published : Option (PublishInfo J)
  deriving DecidableEq

/-- The tail of `handlePostWebhook` once `writeBodyToFile` has returned a
result `w`: the empty-body and length-mismatch checks, blob rename, record
build, record write-then-rename, retention. -/
def publishPhase (h : Bytes → Name) (jparse : List Char → Option J)
    (cfg : Cfg) (ident : Name) (ctH : Option Name) (expected : Option Nat)
    (fault : Fault) (fs : FS J) (w : WriteResult) : PostOut J :=
  let contentType := normCt ctH
  let recordName := ident ++ jsonExt
  let bodyName := ident ++ bodyExt
  let tmpBody := bodyName ++ tmpExt
  let tmpRecord := recordName ++ tmpExt
  let fs1 := fs.writeOver tmpBody (.bytes w.fileBytes)
  if w.written = 0 then ⟨.emptyBody, fs1.unlink tmpBody, none⟩
  else if expected.elim false (fun e => decide (w.written ≠ e)) = true then
    ⟨.incompleteBody, fs1.unlink tmpBody, none⟩
  else if fault = .blobRenameFail then ⟨.serverError, fs1, none⟩
  else
    let fs2 := fs1.rename tmpBody bodyName
    let doc : RecordDoc J :=
      { contentType := contentType
        bodyFile := bodyName
        bodySize := w.written
        bodySha := h w.hashedBytes
        previewTrunc := decide (w.preview.length < w.written)
        decoded := sniff jparse contentType w.preview }
    if fault = .recordWriteFail then ⟨.serverError, fs2, none⟩
    else
      -- `fs.promises.writeFile(tmpRecordPath, ...)`: default `'w'` mode,
      -- silently truncates/overwrites an existing temp path.
      let fs3 := fs2.writeOver tmpRecord (.doc doc)
      if fault = .recordRenameFail then ⟨.serverError, fs3, none⟩
      else
        let fs4 := fs3.rename tmpRecord recordName
        let fs5 := (enforceRetention cfg.keep fs4).1
        ⟨.ok, fs5, some ⟨bodyName, recordName, w.fileBytes, w.preview, doc⟩⟩

/-- The model of `handlePostWebhook(req, res, url)`. `h` is the SHA-256 hex digest,
`jparse` is `JSON.parse`, `ident` the `<stamp>-<randomhex>` identifier. -/
def handlePost (h : Bytes → Name) (jparse : List Char → Option J)
    (cfg : Cfg) (ident : Name) (req : Req) (fault : Fault) (fs : FS J) : PostOut J :=
  match parseCl req.clHeader with
  | .none => ⟨.badContentLength, fs, none⟩
  | some expected =>
  if expected = some 0 then ⟨.emptyBodyDeclared, fs, none⟩
  else if expected.elim false (fun e => decide (cfg.limit < e)) = true then
    ⟨.tooLargeDeclared, fs, none⟩
  else
    let tmpBody := (ident ++ bodyExt) ++ tmpExt
    -- `createWriteStream(tmpBodyPath, { flags: 'wx' })`: an existing temp path
    -- fails the pipeline; the catch block then unlinks that path.
    if (fs.lookup tmpBody).isSome then ⟨.incompleteBody, fs.unlink tmpBody, none⟩
    else
      match writeBody cfg.limit cfg.previewMax expected req.chunks req.aborted with
      | .error e =>
        -- the partially written temp file is unlinked by the catch block
        if e = .payloadTooLarge then ⟨.payloadTooLarge, fs.unlink tmpBody, none⟩
        else ⟨.incompleteBody, fs.unlink tmpBody, none⟩
      | .ok w => publishPhase h jparse cfg ident req.ctHeader expected fault fs w

/-! ### `handleGetIndex` — the listing -/

/-- One listing row: the filename plus the parsed document if
`JSON.parse(readFile(...))` succeeded; `none` = the row is rendered with the
placeholder date/title (the catch branch). The row is pushed either way. -/
structure IndexEntry (J : Type) where
  name : Name
  parsed : Option (RecordDoc J)
  deriving DecidableEq

/-- Listing `handleGetIndex`: list `.json` names, sort descending, take 50, and build
one row per name. -/
def handleGetIndex (fs : FS J) : List (IndexEntry J) :=
  ((sortDesc (recordNames fs)).take 50).map fun n =>
    { name := n
      parsed := match fs.lookup n with
        | some (.doc r) => some r
        | _ => none }

/-! ### `handleGetView` / `handleGetRaw` -/

inductive ViewResult (J : Type) where
  /-- Response 400 `invalid id`. -/
  | invalid
  /-- Response 404 `not found`. -/
  | notFound
  /-- Response 500 `failed to read record`. -/
  | corrupt
  /-- Response 200, rendered from the parsed record. -/
  | page (r : RecordDoc J)
  deriving DecidableEq

/-- View handler `handleGetView`; the second component lists the store paths the handler
accessed, in order. -/
def handleGetView (fs : FS J) (idRaw : Name) : ViewResult J × List Name :=
  let name := trimName idRaw
  if invalidId name then (.invalid, [])
  else
    match fs.lookup name with
    | .none => (.notFound, [name])
    | some (.doc r) => (.page r, [name, name])
    | some _ => (.corrupt, [name, name])

inductive RawResult (J : Type) where
  | invalid
  | notFound
  /-- Response 500 `failed to read record`. -/
  | corruptRecord
  /-- Response 404 `no body` (bad `body_file` reference or absent blob). -/
  | noBody
  /-- Response 200 attachment stream of the blob. -/
  | stream (ctype : Name) (content : FData J)
  deriving DecidableEq

/-- Raw handler `handleGetRaw`, with the accessed-path trace. -/
def handleGetRaw (fs : FS J) (idRaw : Name) : RawResult J × List Name :=
  let name := trimName idRaw
  if invalidId name then (.invalid, [])
  else
    match fs.lookup name with
    | .none => (.notFound, [name])
    | some (.doc r) =>
      let bodyName := trimName r.bodyFile
      if bodyName = [] ∨ blobNameBlocked bodyName then (.noBody, [name, name])
      else
        match fs.lookup bodyName with
        | .none => (.noBody, [name, name, bodyName])
        | some c =>
          let ctype := if trimName r.contentType = [] then defaultCt
            else trimName r.contentType
          (.stream ctype c, [name, name, bodyName, bodyName])
    | some _ => (.corruptRecord, [name, name])

/-! ### Repeated ingest (for the retention claim) -/

/-- Identifiers actually produced by `utcNowStamp()` + `randomBytes(6).hex`:
nonempty strings of alphanumerics and `-`. -/
def simpleId (id : Name) : Bool :=
  id ≠ [] ∧ id.all (fun c => c.isAlphanum ∨ c = '-')

/-- One ingest as `handlePostWebhook` performs it once the stream succeeded:
publish the blob, publish the record document, run retention. `steps` carries
for each ingest its identifier, its record document and its blob contents. -/
def ingestSeq (keep : Int) : FS J → List (Name × RecordDoc J × FData J) → FS J
  | fs, [] => fs
  | fs, (id, doc, blob) :: rest =>
    ingestSeq keep
      (enforceRetention keep
        ((fs.writeOver (id ++ bodyExt) blob).writeOver (id ++ jsonExt) (.doc doc))).1
      rest

/-- A step whose document references its own blob, as the handler writes it. -/
def goodStep (s : Name × RecordDoc J × FData J) : Prop :=
  simpleId s.1 = true ∧ s.2.1.bodyFile = s.1 ++ bodyExt

/-- The directory contents contributed by a list of ingests, newest first. -/
def pairFiles (l : List (Name × RecordDoc J × FData J)) : List (Name × FData J) :=
  l.flatMap (fun s => [(s.1 ++ jsonExt, FData.doc s.2.1), (s.1 ++ bodyExt, s.2.2)])

/-- Invariant tying the tap state's fields to the bytes forwarded so far. -/
def TapInv (previewMax : Nat) (st : TapState) : Prop :=
  st.hashed = st.out ∧ st.written = st.out.length ∧
    st.preview = st.out.take previewMax ∧ st.previewBytes = st.preview.length

/-! ## Helper lemmas -/

theorem lookup_none_iff {fs : FS J} {n : Name} :
    fs.lookup n = none ↔ ∀ p ∈ fs.files, p.1 ≠ n := by
  unfold FS.lookup
  rw [Option.map_eq_none', List.find?_eq_none]
  simp only [decide_eq_true_eq]

theorem filter_ne_of_fresh {fs : FS J} {n : Name} (h : fs.lookup n = none) :
    fs.files.filter (fun p => p.1 ≠ n) = fs.files :=
  List.filter_eq_self.mpr (fun p hp => by simpa using (lookup_none_iff.mp h) p hp)

theorem unlink_noop {fs : FS J} {n : Name} (h : fs.lookup n = none) :
    fs.unlink n = fs :=
  congrArg FS.mk (filter_ne_of_fresh h)

theorem unlink_writeOver (fs : FS J) (n : Name) (c : FData J) :
    (fs.writeOver n c).unlink n = fs.unlink n := by
  simp [FS.writeOver, FS.unlink, List.filter_filter]

theorem writeOver_fresh {fs : FS J} {n : Name} (c : FData J)
    (h : fs.lookup n = none) : fs.writeOver n c = ⟨(n, c) :: fs.files⟩ :=
  congrArg (fun l => FS.mk ((n, c) :: l)) (filter_ne_of_fresh h)

/-- A whitespace-free pattern occurring in a string still occurs after
dropping leading characters satisfying `p`. -/
theorem infix_of_dropWhile {p : Char → Bool} {sub l : List Char}
    (hne : sub ≠ []) (hsub : ∀ c ∈ sub, p c = false) (h : sub <:+: l) :
    sub <:+: l.dropWhile p := by
  induction l with
  | nil =>
    rcases h with ⟨u, v, huv⟩
    simp only [List.nil_eq, List.append_eq_nil] at huv
    exact absurd huv.1.2.symm (by simpa using hne)
  | cons x xs ih =>
    rw [List.dropWhile_cons]
    by_cases hx : p x = true
    · rw [if_pos hx]
      apply ih
      rcases h with ⟨u, v, huv⟩
      cases u with
      | nil =>
        cases sub with
        | nil => exact absurd rfl hne
        | cons s ss =>
          simp only [List.nil_append, List.cons_append, List.cons.injEq] at huv
          exact absurd (huv.1 ▸ hx) (by simp [hsub s (by simp)])
      | cons a u' =>
        simp only [List.cons_append, List.cons.injEq] at huv
        exact ⟨u', v, huv.2.symm ▸ rfl⟩
    · rw [if_neg hx]
      exact h

/-- A nonempty whitespace-free pattern survives `trimName`. -/
theorem infix_of_trim {sub s : List Char}
    (hne : sub ≠ []) (hsub : ∀ c ∈ sub, isWs c = false) (h : sub <:+: s) :
    sub <:+: trimName s := by
  unfold trimName
  have h1 : sub <:+: s.dropWhile isWs := infix_of_dropWhile hne hsub h
  have h2 : sub.reverse <:+: (s.dropWhile isWs).reverse :=
    List.reverse_infix.mpr h1
  have h3 : sub.reverse <:+: ((s.dropWhile isWs).reverse.dropWhile isWs) := by
    apply infix_of_dropWhile (by simpa using hne) _ h2
    intro c hc
    exact hsub c (by simpa using hc)
  have := List.reverse_infix.mpr h3
  simpa using this

theorem singleton_pattern_mem {a : α} {l : List α} :
    a ∈ l ↔ [a] <:+: l := by
  constructor
  · intro h
    rcases List.append_of_mem h with ⟨s, t, rfl⟩
    exact ⟨s, t, by simp⟩
  · rintro ⟨u, v, rfl⟩
    simp

/-- If the (raw, untrimmed) id contains `..`, `/` or `\`, `invalidId` fires. -/
theorem invalidId_of_bad {idRaw : Name}
    (h : ['.', '.'] <:+: idRaw ∨ '/' ∈ idRaw ∨ '\\' ∈ idRaw) :
    invalidId (trimName idRaw) = true := by
  unfold invalidId
  by_cases h0 : trimName (trimName idRaw) = []
  · simp [h0]
  · rcases h with h | h | h
    · have : ['.', '.'] <:+: trimName (trimName idRaw) :=
        infix_of_trim (by simp) (by decide) (infix_of_trim (by simp) (by decide) h)
      simp only [h0, if_false, hasSub, this, decide_eq_true_eq, if_pos, if_true]
    · have : ['/'] <:+: trimName (trimName idRaw) :=
        infix_of_trim (by simp) (by decide)
          (infix_of_trim (by simp) (by decide) (singleton_pattern_mem.mp h))
      have hmem : '/' ∈ trimName (trimName idRaw) := singleton_pattern_mem.mpr this
      simp only [hasSub, hasChar, h0, if_false, hmem]
      split
      · rfl
      · simp
    · have : ['\\'] <:+: trimName (trimName idRaw) :=
        infix_of_trim (by simp) (by decide)
          (infix_of_trim (by simp) (by decide) (singleton_pattern_mem.mp h))
      have hmem : '\\' ∈ trimName (trimName idRaw) := singleton_pattern_mem.mpr this
      simp only [hasSub, hasChar, h0, if_false, hmem]
      split
      · rfl
      · simp

/-! ## C9 -/

/-- C9: for every id containing `../`, `/` or `\` (a separator), both the
record view (`get`) and the raw-body read return the invalid-id error and
perform no filesystem access at all (empty access trace). -/
theorem c9_traversal_ids_rejected_before_fs {J : Type} (fs : FS J) (idRaw : Name)
    (h : "../".toList <:+: idRaw ∨ '/' ∈ idRaw ∨ '\\' ∈ idRaw) :
    handleGetView fs idRaw = (.invalid, []) ∧ handleGetRaw fs idRaw = (.invalid, []) := by
  have hbad : ['.', '.'] <:+: idRaw ∨ '/' ∈ idRaw ∨ '\\' ∈ idRaw := by
    rcases h with h | h | h
    · left
      exact List.IsInfix.trans ⟨[], ['/'], rfl⟩ h
    · right; left; exact h
    · right; right; exact h
  have hid := invalidId_of_bad hbad
  constructor
  · unfold handleGetView
    rw [if_pos hid]
  · unfold handleGetRaw
    rw [if_pos hid]

/-- Witness for C9 at the concrete id `../x`. -/
theorem c9_witness :
    handleGetView (J := Unit) FS.empty "../x".toList = (.invalid, []) ∧
      handleGetRaw (J := Unit) FS.empty "../x".toList = (.invalid, []) :=
  c9_traversal_ids_rejected_before_fs FS.empty "../x".toList (by left; decide)

/-! ## C2 -/

/-- C2 counterexample: for content type `application/json` and the preview
`[0xFF]` (not valid UTF-8, hence also not parseable JSON), the code stores
the *lenient* UTF-8 decode (one U+FFFD) as `body_text`, whereas the claimed
JSON → strict-text → base64 chain (`sniffClaimC2`) would store `body_b64`.
The two definitions disagree at this input. -/
theorem c2_counterexample :
    sniff (J := Unit) (fun _ => none) "application/json".toList [0xFF] =
        .text [Char.ofNat 0xFFFD] ∧
      sniffClaimC2 (J := Unit) (fun _ => none) "application/json".toList [0xFF] =
        .b64 (b64Encode [0xFF]) ∧
      sniff (J := Unit) (fun _ => none) "application/json".toList [0xFF] ≠
        sniffClaimC2 (J := Unit) (fun _ => none) "application/json".toList [0xFF] := by
  refine ⟨by decide, by decide, by decide⟩

/-- C2 amended: for a JSON content type and nonempty preview, the stored
decoding is `decoded_json` when the strict UTF-8 decode and the JSON parse
both succeed, and otherwise the *leniently* decoded preview text — never
`decoded_b64`. (The strict-decode → base64 fallback chain applies only to
non-JSON content types; sniffing reads only the preview, as `sniff` takes no
other byte input.) -/
theorem c2_json_sniff_amended {J : Type} (jparse : List Char → Option J)
    (ct : Name) (preview : Bytes)
    (hct : isJsonCt ct = true) (hp : preview ≠ []) :
    (∃ s j, decodeUtf8Strict preview = some s ∧ jparse s = some j ∧
        sniff jparse ct preview = .json j) ∨
      sniff jparse ct preview = .text (decodeUtf8Lenient preview) := by
  unfold sniff
  rw [if_pos ⟨hct, hp⟩]
  cases hb : (decodeUtf8Strict preview).bind jparse with
  | none => right; rfl
  | some j =>
    left
    rcases Option.bind_eq_some.mp hb with ⟨s, hs, hj⟩
    exact ⟨s, j, hs, hj, rfl⟩

/-- Witness for the amended C2 at the concrete input of the counterexample. -/
theorem c2_witness :
    (∃ s j, decodeUtf8Strict [0xFF] = some s ∧ (fun _ => none : List Char → Option Unit) s = some j ∧
        sniff (fun _ => none) "application/json".toList [0xFF] = .json j) ∨
      sniff (J := Unit) (fun _ => none) "application/json".toList [0xFF] =
        .text (decodeUtf8Lenient [0xFF]) :=
  c2_json_sniff_amended (fun _ => none) "application/json".toList [0xFF]
    (by decide) (by decide)

/-! ## C7 -/

/-- C7 counterexample: a directory whose single record document is
unparseable. The listing still contains one row for it (with the placeholder
`parsed := none`), whereas the claim says such a document is skipped and the
returned sequence would be empty. -/
theorem c7_counterexample :
    handleGetIndex (J := Unit) ⟨[("b.json".toList, .junk)]⟩ =
        [⟨"b.json".toList, none⟩] ∧
      handleGetIndex (J := Unit) ⟨[("b.json".toList, .junk)]⟩ ≠ [] := by
  refine ⟨by decide, by decide⟩

/-- C7 amended: the listing returns one row per record name for up to 50 of
the most recent record documents, in descending name order; a missing or
unparseable document is *included* with placeholder fields (`parsed = none`)
rather than skipped, and is never fatal to the listing. -/
theorem c7_listing_amended {J : Type} (fs : FS J) :
    (handleGetIndex fs).map IndexEntry.name = (sortDesc (recordNames fs)).take 50 ∧
      (handleGetIndex fs).length = min 50 (sortDesc (recordNames fs)).length ∧
      List.Sorted (· ≥ ·) ((handleGetIndex fs).map IndexEntry.name) ∧
      ∀ e ∈ handleGetIndex fs,
        e.parsed = match fs.lookup e.name with
          | some (.doc r) => some r
          | _ => none := by
  have hmap : (handleGetIndex fs).map IndexEntry.name = (sortDesc (recordNames fs)).take 50 := by
    unfold handleGetIndex
    rw [List.map_map]
    exact List.map_id'' (fun x => rfl) _
  refine ⟨hmap, ?_, ?_, ?_⟩
  · unfold handleGetIndex
    simp [List.length_take, min_comm]
  · rw [hmap]
    have hsorted : List.Sorted (· ≥ ·) (sortDesc (recordNames fs)) := by
      unfold sortDesc
      rw [List.Sorted, List.pairwise_reverse]
      exact (List.sorted_insertionSort (· ≤ ·) (recordNames fs)).imp (fun h => h)
    exact List.Pairwise.sublist (List.take_sublist _ _) hsorted
  · intro e he
    unfold handleGetIndex at he
    rcases List.mem_map.mp he with ⟨n, _, rfl⟩
    rfl

/-- Witness for the amended C7 on a one-record directory whose document is
corrupt. -/
theorem c7_witness :
    (handleGetIndex (J := Unit) ⟨[("b.json".toList, .junk)]⟩).map IndexEntry.name
        = (sortDesc (recordNames (J := Unit) ⟨[("b.json".toList, .junk)]⟩)).take 50 ∧
      (IndexEntry.mk "b.json".toList (none : Option (RecordDoc Unit))).parsed = none :=
  ⟨(c7_listing_amended (⟨[("b.json".toList, .junk)]⟩ : FS Unit)).1,
    (c7_listing_amended (⟨[("b.json".toList, .junk)]⟩ : FS Unit)).2.2.2
      ⟨"b.json".toList, none⟩ (by decide)⟩

/-! ## Tap-state lemmas -/

theorem take_min_length (l : List α) (n : Nat) :
    l.take (min n l.length) = l.take n := by
  rcases le_total n l.length with h | h
  · rw [min_eq_left h]
  · rw [min_eq_right h, List.take_of_length_le h, List.take_length]

theorem tapChunk_inv {mb pm : Nat} {ex : Option Nat} {st st' : TapState} {c : Bytes}
    (hinv : TapInv pm st) (hok : tapChunk mb ex pm st c = .ok st') :
    TapInv pm st' ∧ st'.out = st.out ++ c := by
  obtain ⟨hh, hw, hp, hpb⟩ := hinv
  have hpbv : st.previewBytes = min pm st.out.length := by
    rw [hpb, hp, List.length_take]
  unfold tapChunk at hok
  split at hok
  · exact absurd hok (by simp)
  · split at hok
    · exact absurd hok (by simp)
    · split at hok
      · -- preview still filling
        rename_i hlt
        injection hok with hok
        subst hok
        have houtlt : st.out.length < pm := by
          by_contra hge
          rw [hpbv, min_eq_left (le_of_not_lt hge)] at hlt
          exact lt_irrefl _ hlt
        have hpb' : st.previewBytes = st.out.length := by
          rw [hpbv, min_eq_right houtlt.le]
        have hpout : st.preview = st.out := by
          rw [hp, List.take_of_length_le houtlt.le]
        refine ⟨⟨?_, ?_, ?_, ?_⟩, rfl⟩
        · simpa using hh
        · simp [hw]
        · simp only [hpout, hpb']
          rw [List.take_append_eq_append_take, List.take_of_length_le houtlt.le,
            take_min_length]
        · simp only [hpout, hpb', List.length_append, List.length_take]
          have : min (min (pm - st.out.length) c.length) c.length
              = min (pm - st.out.length) c.length := by
            rw [min_eq_left (min_le_right _ _)]
          rw [this]
      · -- preview already full
        rename_i hlt
        injection hok with hok
        subst hok
        have houtge : pm ≤ st.out.length := by
          by_contra hlt2
          exact hlt (by rw [hpbv, min_eq_right (le_of_not_le hlt2)]; exact lt_of_not_le hlt2)
        refine ⟨⟨?_, ?_, ?_, ?_⟩, rfl⟩
        · simpa using hh
        · simp [hw]
        · simp only [List.take_zero, List.append_nil]
          rw [hp, List.take_append_of_le_length houtge]
        · simp only [List.take_zero, List.append_nil, Nat.add_zero]
          exact hpb

theorem runTap_inv {mb pm : Nat} {ex : Option Nat} :
    ∀ {chunks : List Bytes} {st st' : TapState},
      TapInv pm st → runTap mb ex pm st chunks = .ok st' →
      TapInv pm st' ∧ st'.out = st.out ++ chunks.flatten := by
  intro chunks
  induction chunks with
  | nil =>
    intro st st' hinv hok
    unfold runTap at hok
    injection hok with hok
    subst hok
    exact ⟨hinv, by simp⟩
  | cons c rest ih =>
    intro st st' hinv hok
    unfold runTap at hok
    split at hok
    · exact absurd hok (by simp)
    · rename_i st1 h1
      obtain ⟨hinv1, hout1⟩ := tapChunk_inv hinv h1
      obtain ⟨hinv', hout'⟩ := ih hinv1 hok
      exact ⟨hinv', by rw [hout', hout1, List.flatten_cons, List.append_assoc]⟩

theorem initTap_inv (pm : Nat) : TapInv pm initTap := by
  refine ⟨rfl, rfl, by simp [initTap], rfl⟩

theorem writeBody_ok_spec {mb pm : Nat} {ex : Option Nat} {chunks : List Bytes}
    {ab : Bool} {w : WriteResult}
    (hok : writeBody mb pm ex chunks ab = .ok w) :
    w.fileBytes = chunks.flatten ∧ w.hashedBytes = chunks.flatten ∧
      w.written = chunks.flatten.length ∧ w.preview = chunks.flatten.take pm := by
  unfold writeBody at hok
  split at hok
  · exact absurd hok (by simp)
  · split at hok
    · exact absurd hok (by simp)
    · rename_i st hst
      split at hok
      · exact absurd hok (by simp)
      · injection hok with hok
        obtain ⟨⟨hh, hw, hp, _⟩, hout⟩ := runTap_inv (initTap_inv pm) hst
        simp only [initTap, List.nil_append] at hout
        subst hok
        exact ⟨hout, by rw [hh, hout], by rw [hw, hout], by rw [hp, hout]⟩

/-! ## Handler path lemmas -/

/-- With no post-stream I/O fault and a fresh blob temp path, the publish
phase either succeeds or leaves the directory exactly as it was. -/
theorem publishPhase_ok_or_unchanged {J : Type} (h : Bytes → Name)
    (jparse : List Char → Option J) (cfg : Cfg) (ident : Name) (ctH : Option Name)
    (expected : Option Nat) (fs : FS J) (w : WriteResult)
    (hfresh : fs.lookup ((ident ++ bodyExt) ++ tmpExt) = none) :
    (publishPhase h jparse cfg ident ctH expected .none fs w).result = .ok ∨
      (publishPhase h jparse cfg ident ctH expected .none fs w).fs = fs := by
  simp only [publishPhase]
  split
  · right; rw [unlink_writeOver]; exact unlink_noop hfresh
  · split
    · right; rw [unlink_writeOver]; exact unlink_noop hfresh
    · split
      · exact absurd (show Fault.none = Fault.blobRenameFail from ‹_›) (by decide)
      · split
        · exact absurd (show Fault.none = Fault.recordWriteFail from ‹_›) (by decide)
        · split
          · exact absurd (show Fault.none = Fault.recordRenameFail from ‹_›) (by decide)
          · left; rfl

/-- A publish phase that reached `200 ok` published exactly the write's
output, with the record fields built from it. -/
theorem publishPhase_ok_spec {J : Type} {h : Bytes → Name}
    {jparse : List Char → Option J} {cfg : Cfg} {ident : Name} {ctH : Option Name}
    {expected : Option Nat} {fault : Fault} {fs : FS J} {w : WriteResult}
    (hr : (publishPhase h jparse cfg ident ctH expected fault fs w).result = .ok) :
    (publishPhase h jparse cfg ident ctH expected fault fs w).published =
      some ⟨ident ++ bodyExt, ident ++ jsonExt, w.fileBytes, w.preview,
        { contentType := normCt ctH
          bodyFile := ident ++ bodyExt
          bodySize := w.written
          bodySha := h w.hashedBytes
          previewTrunc := decide (w.preview.length < w.written)
          decoded := sniff jparse (normCt ctH) w.preview }⟩ := by
  revert hr
  simp only [publishPhase]
  split
  · intro hr; simp at hr
  · split
    · intro hr; simp at hr
    · split
      · intro hr; simp at hr
      · split
        · intro hr; simp at hr
        · split
          · intro hr; simp at hr
          · intro _; rfl

/-- With no post-stream I/O fault and fresh temp paths, a POST either
succeeds or leaves the directory exactly as it was. -/
theorem handlePost_ok_or_unchanged {J : Type} (h : Bytes → Name)
    (jparse : List Char → Option J) (cfg : Cfg) (ident : Name) (req : Req) (fs : FS J)
    (hfresh : fs.lookup ((ident ++ bodyExt) ++ tmpExt) = none) :
    (handlePost h jparse cfg ident req .none fs).result = .ok ∨
      (handlePost h jparse cfg ident req .none fs).fs = fs := by
  simp only [handlePost]
  split
  · right; rfl
  · split
    · right; rfl
    · split
      · right; rfl
      · split
        · right; exact unlink_noop hfresh
        · split
          · split
            · right; exact unlink_noop hfresh
            · right; exact unlink_noop hfresh
          · exact publishPhase_ok_or_unchanged h jparse cfg ident req.ctHeader _ fs _ hfresh

/-- A POST that answered `200 ok` ran `writeBodyToFile` to completion and
published exactly what the write returned. -/
theorem handlePost_ok_spec {J : Type} {h : Bytes → Name}
    {jparse : List Char → Option J} {cfg : Cfg} {ident : Name} {req : Req}
    {fault : Fault} {fs : FS J}
    (hr : (handlePost h jparse cfg ident req fault fs).result = .ok) :
    ∃ expected w, parseCl req.clHeader = some expected ∧
      writeBody cfg.limit cfg.previewMax expected req.chunks req.aborted = .ok w ∧
      fs.lookup ((ident ++ bodyExt) ++ tmpExt) = none ∧
      (handlePost h jparse cfg ident req fault fs).published =
        some ⟨ident ++ bodyExt, ident ++ jsonExt, w.fileBytes, w.preview,
          { contentType := normCt req.ctHeader
            bodyFile := ident ++ bodyExt
            bodySize := w.written
            bodySha := h w.hashedBytes
            previewTrunc := decide (w.preview.length < w.written)
            decoded := sniff jparse (normCt req.ctHeader) w.preview }⟩ := by
  revert hr
  simp only [handlePost]
  split
  · intro hr; simp at hr
  · split
    · intro hr; simp at hr
    · split
      · intro hr; simp at hr
      · split
        · intro hr; simp at hr
        · split
          · split
            · intro hr; simp at hr
            · intro hr; simp at hr
          · rename_i _ expected hparse _ _ hns _ w hwrite
            intro hr
            exact ⟨expected, w, hparse, hwrite,
              Option.not_isSome_iff_eq_none.mp hns, publishPhase_ok_spec hr⟩

/-- If the total size exceeds `maxBytes`, the tap errors; when no length was
declared the error is necessarily `PAYLOAD_TOO_LARGE`. -/
theorem runTap_err_of_oversize (mb pm : Nat) (ex : Option Nat) :
    ∀ (chunks : List Bytes) (st : TapState), st.written ≤ mb →
      mb < st.written + (chunks.map List.length).sum →
      ∃ e, runTap mb ex pm st chunks = .error e ∧ (ex = none → e = .payloadTooLarge) := by
  intro chunks
  induction chunks with
  | nil =>
    intro st hle hlt
    simp only [List.map_nil, List.sum_nil, Nat.add_zero] at hlt
    exact absurd hle (not_le_of_lt hlt)
  | cons c rest ih =>
    intro st hle hlt
    by_cases h1 : mb < st.written + c.length
    · refine ⟨.payloadTooLarge, ?_, fun _ => rfl⟩
      unfold runTap tapChunk
      rw [if_pos h1]
    · by_cases h2 : (ex.elim false fun e => decide (e < st.written + c.length)) = true
      · refine ⟨.tooMuchData, ?_, ?_⟩
        · unfold runTap tapChunk
          rw [if_neg h1, if_pos h2]
        · intro hex
          subst hex
          simp at h2
      · have htap : tapChunk mb ex pm st c = .ok
            { written := st.written + c.length
              hashed := st.hashed ++ c
              preview := st.preview ++
                c.take (if st.previewBytes < pm
                  then min (pm - st.previewBytes) c.length else 0)
              previewBytes := st.previewBytes +
                (if st.previewBytes < pm
                  then min (pm - st.previewBytes) c.length else 0)
              out := st.out ++ c } := by
          unfold tapChunk
          rw [if_neg h1, if_neg h2]
        have hstep : runTap mb ex pm st (c :: rest) = runTap mb ex pm
            { written := st.written + c.length
              hashed := st.hashed ++ c
              preview := st.preview ++
                c.take (if st.previewBytes < pm
                  then min (pm - st.previewBytes) c.length else 0)
              previewBytes := st.previewBytes +
                (if st.previewBytes < pm
                  then min (pm - st.previewBytes) c.length else 0)
              out := st.out ++ c } rest := by
          simp only [runTap]
          rw [htap]
        rw [hstep]
        apply ih
        · exact le_of_not_lt h1
        · simp only [List.map_cons, List.sum_cons] at hlt
          simpa [Nat.add_assoc] using hlt

/-- On an oversize stream `writeBodyToFile` always errors, and with no
declared length it errors with `PAYLOAD_TOO_LARGE`. -/
theorem writeBody_err_of_oversize (mb pm : Nat) (ex : Option Nat)
    (chunks : List Bytes) (ab : Bool)
    (hmb : mb ≠ 0) (hlt : mb < (chunks.map List.length).sum) :
    ∃ e, writeBody mb pm ex chunks ab = .error e ∧ (ex = none → e = .payloadTooLarge) := by
  obtain ⟨e, he, hpe⟩ := runTap_err_of_oversize mb pm ex chunks initTap
    (by simp [initTap]) (by simpa [initTap] using hlt)
  refine ⟨e, ?_, hpe⟩
  unfold writeBody
  rw [if_neg hmb, he]

/-! ## C1 -/

/-- C1 counterexample: an I/O failure on the Record temp-file write (after
the Blob rename) aborts the ingest with a 500, yet leaves the published Blob
`a.body` in the store with no Record document — a failure path that commits
the Blob without its Record, contradicting the claim. -/
theorem c1_counterexample :
    (handlePost (J := Unit) (fun _ => []) (fun _ => none) ⟨10, 5, 0⟩ "a".toList
        ⟨none, none, [[1, 2, 3]], false⟩ .recordWriteFail FS.empty).result ≠ .ok ∧
      (handlePost (J := Unit) (fun _ => []) (fun _ => none) ⟨10, 5, 0⟩ "a".toList
        ⟨none, none, [[1, 2, 3]], false⟩ .recordWriteFail FS.empty).fs.lookup
          "a.body".toList = some (.bytes [1, 2, 3]) ∧
      (handlePost (J := Unit) (fun _ => []) (fun _ => none) ⟨10, 5, 0⟩ "a".toList
        ⟨none, none, [[1, 2, 3]], false⟩ .recordWriteFail FS.empty).fs.lookup
          "a.json".toList = none := by
  refine ⟨by decide, by decide, by decide⟩

/-- C1 amended: for every ingest that fails before the Blob rename — bad or
oversized declared length, size violation, length mismatch, empty body,
client disconnect, or any stream error during the blob write (all failures
with no post-stream I/O fault) — the store directory is left exactly
unchanged: the Blob temp file is removed and no Blob or Record is published.
(An I/O failure during the later Record write can leave the renamed Blob
behind without a Record; see the counterexample.) -/
theorem c1_failed_ingest_unchanged {J : Type} (h : Bytes → Name)
    (jparse : List Char → Option J) (cfg : Cfg) (ident : Name) (req : Req) (fs : FS J)
    (hfresh : fs.lookup ((ident ++ bodyExt) ++ tmpExt) = none)
    (hres : (handlePost h jparse cfg ident req .none fs).result ≠ .ok) :
    (handlePost h jparse cfg ident req .none fs).fs = fs :=
  (handlePost_ok_or_unchanged h jparse cfg ident req fs hfresh).resolve_left hres

/-- Witness for the amended C1: a client disconnect mid-body leaves the
empty store empty. -/
theorem c1_witness :
    (handlePost (J := Unit) (fun _ => []) (fun _ => none) ⟨10, 5, 0⟩ "a".toList
      ⟨none, none, [[1, 2, 3]], true⟩ .none FS.empty).fs = FS.empty :=
  c1_failed_ingest_unchanged (fun _ => []) (fun _ => none) ⟨10, 5, 0⟩ "a".toList
    ⟨none, none, [[1, 2, 3]], true⟩ FS.empty (by decide) (by decide)

/-! ## C6 -/

/-- C6 counterexample: limit 10, declared Content-Length 5, actual payload
12 bytes delivered as two 6-byte chunks. The running count exceeds the lying
declared length before it exceeds `maxBytes`, so the ingest fails with the
400 `incomplete body` error (`TOO_MUCH_DATA`), not the claimed 413
`PayloadTooLarge`. -/
theorem c6_counterexample :
    (handlePost (J := Unit) (fun _ => []) (fun _ => none) ⟨10, 5, 0⟩ "a".toList
        ⟨some "5".toList, none, [[0, 0, 0, 0, 0, 0], [0, 0, 0, 0, 0, 0]], false⟩
        .none FS.empty).result = .incompleteBody ∧
      (handlePost (J := Unit) (fun _ => []) (fun _ => none) ⟨10, 5, 0⟩ "a".toList
        ⟨some "5".toList, none, [[0, 0, 0, 0, 0, 0], [0, 0, 0, 0, 0, 0]], false⟩
        .none FS.empty).result ≠ .payloadTooLarge := by
  refine ⟨by decide, by decide⟩

/-- C6 amended: for every payload whose total size exceeds `maxBytes` (and
no post-stream I/O fault), the ingest fails and the store directory is left
unchanged — no Blob or Record file exists afterwards; the failure is
`PayloadTooLarge` whenever no Content-Length header was sent (and the stream
is aborted at the first chunk that pushes the running count over a bound),
but a lying smaller declared length can make the ingest fail with the
length-mismatch 400 error instead. -/
theorem c6_oversize_rejected {J : Type} (h : Bytes → Name)
    (jparse : List Char → Option J) (cfg : Cfg) (ident : Name) (req : Req) (fs : FS J)
    (hlim : 0 < cfg.limit)
    (hfresh : fs.lookup ((ident ++ bodyExt) ++ tmpExt) = none)
    (hS : cfg.limit < (req.chunks.map List.length).sum) :
    (handlePost h jparse cfg ident req .none fs).result ≠ .ok ∧
      (handlePost h jparse cfg ident req .none fs).fs = fs ∧
      (req.clHeader = none →
        (handlePost h jparse cfg ident req .none fs).result = .payloadTooLarge) := by
  have hnok : (handlePost h jparse cfg ident req .none fs).result ≠ .ok := by
    intro hr
    obtain ⟨expected, w, _, hwrite, _, _⟩ := handlePost_ok_spec hr
    obtain ⟨e, he, _⟩ := writeBody_err_of_oversize cfg.limit cfg.previewMax expected
      req.chunks req.aborted (Nat.pos_iff_ne_zero.mp hlim) hS
    rw [hwrite] at he
    exact absurd he (by simp)
  refine ⟨hnok,
    (handlePost_ok_or_unchanged h jparse cfg ident req fs hfresh).resolve_left hnok, ?_⟩
  intro hcl
  obtain ⟨e, he, hpe⟩ := writeBody_err_of_oversize cfg.limit cfg.previewMax none
    req.chunks req.aborted (Nat.pos_iff_ne_zero.mp hlim) hS
  rw [hpe rfl] at he
  simp only [handlePost, hcl, parseCl]
  have hns : ¬((fs.lookup ((ident ++ bodyExt) ++ tmpExt)).isSome = true) := by
    rw [hfresh]
    simp
  rw [if_neg (by simp), if_neg (by simp), if_neg hns, he]
  rfl

/-- Witness for the amended C6: 12 bytes against a 10-byte limit with no
Content-Length header fail with `PayloadTooLarge` and leave the empty store
empty. -/
theorem c6_witness :
    (handlePost (J := Unit) (fun _ => []) (fun _ => none) ⟨10, 5, 0⟩ "a".toList
        ⟨none, none, [[0, 0, 0, 0, 0, 0], [0, 0, 0, 0, 0, 0]], false⟩
        .none FS.empty).result ≠ .ok ∧
      (handlePost (J := Unit) (fun _ => []) (fun _ => none) ⟨10, 5, 0⟩ "a".toList
        ⟨none, none, [[0, 0, 0, 0, 0, 0], [0, 0, 0, 0, 0, 0]], false⟩
        .none FS.empty).fs = FS.empty ∧
      (none = (none : Option Name) →
        (handlePost (J := Unit) (fun _ => []) (fun _ => none) ⟨10, 5, 0⟩ "a".toList
          ⟨none, none, [[0, 0, 0, 0, 0, 0], [0, 0, 0, 0, 0, 0]], false⟩
          .none FS.empty).result = .payloadTooLarge) :=
  c6_oversize_rejected (fun _ => []) (fun _ => none) ⟨10, 5, 0⟩ "a".toList
    ⟨none, none, [[0, 0, 0, 0, 0, 0], [0, 0, 0, 0, 0, 0]], false⟩ FS.empty
    (by decide) (by decide) (by decide)

/-! ## C8 -/

/-- C8 counterexample: with a leftover record temp file `a.json.tmp` already
present, the ingest still succeeds — `writeFile` on the record temp path
uses the default truncating mode, silently overwriting, instead of the
claimed create-exclusive failure. -/
theorem c8_counterexample :
    (handlePost (J := Unit) (fun _ => []) (fun _ => none) ⟨10, 5, 0⟩ "a".toList
        ⟨none, none, [[1]], false⟩ .none ⟨[("a.json.tmp".toList, .junk)]⟩).result = .ok ∧
      FS.lookup (J := Unit) ⟨[("a.json.tmp".toList, .junk)]⟩ "a.json.tmp".toList ≠ none := by
  refine ⟨by decide, by decide⟩

/-- C8 amended: only the Blob temp write is create-exclusive: an ingest
whose blob temp path already exists always fails explicitly (never returns
`200 ok`), while an existing Record temp path is silently overwritten by the
default-mode `writeFile` (see the counterexample); both files are then
published by rename. -/
theorem c8_blob_temp_exclusive {J : Type} (h : Bytes → Name)
    (jparse : List Char → Option J) (cfg : Cfg) (ident : Name) (req : Req)
    (fault : Fault) (fs : FS J)
    (hcol : (fs.lookup ((ident ++ bodyExt) ++ tmpExt)).isSome = true) :
    (handlePost h jparse cfg ident req fault fs).result ≠ .ok := by
  intro hr
  obtain ⟨_, _, _, _, hnone, _⟩ := handlePost_ok_spec hr
  rw [hnone] at hcol
  exact absurd hcol (by simp)

/-- Witness for the amended C8: a pre-existing `a.body.tmp` makes the ingest
fail. -/
theorem c8_witness :
    (handlePost (J := Unit) (fun _ => []) (fun _ => none) ⟨10, 5, 0⟩ "a".toList
      ⟨none, none, [[1]], false⟩ .none ⟨[("a.body.tmp".toList, .junk)]⟩).result ≠ .ok :=
  c8_blob_temp_exclusive (fun _ => []) (fun _ => none) ⟨10, 5, 0⟩ "a".toList
    ⟨none, none, [[1]], false⟩ .none ⟨[("a.body.tmp".toList, .junk)]⟩ (by decide)

/-! ## C4 -/

/-- C4: every accepted payload publishes a Blob containing exactly the bytes
received (`body_size` = its length = the payload size), and the Record's
`body_sha256` is the digest of exactly those stored bytes — the hasher was
fed the full stream, not the preview. -/
theorem c4_hash_over_stored_bytes {J : Type} (h : Bytes → Name)
    (jparse : List Char → Option J) (cfg : Cfg) (ident : Name) (req : Req)
    (fault : Fault) (fs : FS J)
    (hr : (handlePost h jparse cfg ident req fault fs).result = .ok) :
    ∃ p, (handlePost h jparse cfg ident req fault fs).published = some p ∧
      p.content = req.chunks.flatten ∧
      p.doc.bodySize = p.content.length ∧
      p.doc.bodySha = h p.content := by
  obtain ⟨expected, w, _, hwrite, _, hpub⟩ := handlePost_ok_spec hr
  obtain ⟨hfile, hhash, hlen, _⟩ := writeBody_ok_spec hwrite
  refine ⟨_, hpub, hfile, ?_, ?_⟩
  · show w.written = w.fileBytes.length
    rw [hfile, hlen]
  · show h w.hashedBytes = h w.fileBytes
    rw [hhash, hfile]

/-- Witness for C4 at a concrete two-chunk accepted payload. -/
theorem c4_witness :
    ∃ p, (handlePost (J := Unit) (fun b => b.map (fun n => Char.ofNat (48 + n)))
        (fun _ => none) ⟨10, 2, 0⟩ "a".toList
        ⟨some "4".toList, some "text/plain".toList, [[1, 2], [3, 4]], false⟩
        .none FS.empty).published = some p ∧
      p.content = [[1, 2], [3, 4]].flatten ∧
      p.doc.bodySize = p.content.length ∧
      p.doc.bodySha = (fun b => b.map (fun n => Char.ofNat (48 + n))) p.content :=
  c4_hash_over_stored_bytes (fun b => b.map (fun n => Char.ofNat (48 + n)))
    (fun _ => none) ⟨10, 2, 0⟩ "a".toList
    ⟨some "4".toList, some "text/plain".toList, [[1, 2], [3, 4]], false⟩
    .none FS.empty (by decide)

/-! ## C5 -/

/-- C5: for every accepted payload of size `S` with preview limit `P`, the
captured preview is exactly the first `min S P` bytes of the payload (so no
byte beyond the first `P` is retained), and the stored `preview_truncated`
flag is true iff `S` exceeds the preview length. -/
theorem c5_preview_bounded {J : Type} (h : Bytes → Name)
    (jparse : List Char → Option J) (cfg : Cfg) (ident : Name) (req : Req)
    (fault : Fault) (fs : FS J)
    (hr : (handlePost h jparse cfg ident req fault fs).result = .ok) :
    ∃ p, (handlePost h jparse cfg ident req fault fs).published = some p ∧
      p.preview = req.chunks.flatten.take cfg.previewMax ∧
      p.preview.length = min (req.chunks.flatten.length) cfg.previewMax ∧
      (p.doc.previewTrunc = true ↔ p.preview.length < p.doc.bodySize) := by
  obtain ⟨expected, w, _, hwrite, _, hpub⟩ := handlePost_ok_spec hr
  obtain ⟨_, _, _, hprev⟩ := writeBody_ok_spec hwrite
  refine ⟨_, hpub, hprev, ?_, ?_⟩
  · rw [hprev, List.length_take, min_comm]
  · show decide (w.preview.length < w.written) = true ↔ w.preview.length < w.written
    exact decide_eq_true_iff

/-- Witness for C5: payload of 4 bytes against preview limit 2. -/
theorem c5_witness :
    ∃ p, (handlePost (J := Unit) (fun _ => []) (fun _ => none) ⟨10, 2, 0⟩ "a".toList
        ⟨none, none, [[1, 2], [3, 4]], false⟩ .none FS.empty).published = some p ∧
      p.preview = [[1, 2], [3, 4]].flatten.take 2 ∧
      p.preview.length = min ([[1, 2], [3, 4]].flatten.length) 2 ∧
      (p.doc.previewTrunc = true ↔ p.preview.length < p.doc.bodySize) :=
  c5_preview_bounded (fun _ => []) (fun _ => none) ⟨10, 2, 0⟩ "a".toList
    ⟨none, none, [[1, 2], [3, 4]], false⟩ .none FS.empty (by decide)

/-! ## C10 -/

theorem lookup_unlink_self (fs : FS J) (n : Name) : (fs.unlink n).lookup n = none := by
  rw [lookup_none_iff]
  intro p hp
  have := List.of_mem_filter hp
  simpa using this

theorem lookup_unlink_none {fs : FS J} {n m : Name} (h : fs.lookup n = none) :
    (fs.unlink m).lookup n = none := by
  rw [lookup_none_iff] at h ⊢
  intro p hp
  exact h p (List.mem_of_mem_filter hp)

theorem evictOne_fs_none {acc : FS J × List UnlinkCall} {n : Name} {rn : Name}
    (h : acc.1.lookup n = none) : (evictOne acc rn).1.lookup n = none := by
  obtain ⟨fs0, cs0⟩ := acc
  simp only [evictOne]
  split
  · exact lookup_unlink_none h
  · split
    · exact lookup_unlink_none h
    · exact lookup_unlink_none (lookup_unlink_none h)

theorem evictOne_removes (acc : FS J × List UnlinkCall) (rn : Name) :
    (evictOne acc rn).1.lookup rn = none := by
  obtain ⟨fs0, cs0⟩ := acc
  simp only [evictOne]
  split
  · exact lookup_unlink_self _ _
  · split
    · exact lookup_unlink_self _ _
    · exact lookup_unlink_none (lookup_unlink_self _ _)

theorem foldl_evict_none {J : Type} :
    ∀ (stale : List Name) (acc : FS J × List UnlinkCall) (n : Name),
      acc.1.lookup n = none → (stale.foldl evictOne acc).1.lookup n = none := by
  intro stale
  induction stale with
  | nil => exact fun acc n h => h
  | cons r rest ih => exact fun acc n h => ih _ n (evictOne_fs_none h)

theorem foldl_evict_removes {J : Type} :
    ∀ (stale : List Name) (acc : FS J × List UnlinkCall) (rn : Name),
      rn ∈ stale → (stale.foldl evictOne acc).1.lookup rn = none := by
  intro stale
  induction stale with
  | nil => intro _ _ h; cases h
  | cons r rest ih =>
    intro acc rn hmem
    rcases List.mem_cons.mp hmem with rfl | hmem
    · exact foldl_evict_none rest _ rn (evictOne_removes acc rn)
    · exact ih _ rn hmem

theorem foldl_evict_calls {J : Type} :
    ∀ (stale : List Name) (acc : FS J × List UnlinkCall),
      (∀ c ∈ acc.2, c.isBlob = true → c.name ≠ [] ∧ blobNameBlocked c.name = false) →
      ∀ c ∈ (stale.foldl evictOne acc).2, c.isBlob = true →
        c.name ≠ [] ∧ blobNameBlocked c.name = false := by
  intro stale
  induction stale with
  | nil => exact fun acc h => h
  | cons r rest ih =>
    intro acc hacc
    apply ih
    obtain ⟨fs0, cs0⟩ := acc
    simp only [evictOne]
    split
    · intro c hc hb
      rcases List.mem_append.mp hc with hc | hc
      · exact hacc c hc hb
      · simp only [List.mem_singleton] at hc
        subst hc
        simp at hb
    · rename_i hne
      split
      · intro c hc hb
        rcases List.mem_append.mp hc with hc | hc
        · exact hacc c hc hb
        · simp only [List.mem_singleton] at hc
          subst hc
          simp at hb
      · rename_i hblock
        intro c hc hb
        rcases List.mem_append.mp hc with hc | hc
        · rcases List.mem_append.mp hc with hc | hc
          · exact hacc c hc hb
          · simp only [List.mem_singleton] at hc
            subst hc
            simp at hb
        · simp only [List.mem_singleton] at hc
          subst hc
          exact ⟨hne, Bool.not_eq_true _ ▸ eq_false_of_ne_true hblock⟩

/-- C10: during eviction, every blob unlink the retention pass issues names a
non-empty `body_file` value free of `..`, `/` and `\` (so it can only name a
direct child of the store directory), while the stale record document itself
is always removed — even when its `body_file` is malicious. -/
theorem c10_eviction_blob_validation {J : Type} (keep : Int) (fs : FS J) :
    (∀ c ∈ (enforceRetention keep fs).2, c.isBlob = true →
      c.name ≠ [] ∧ blobNameBlocked c.name = false) ∧
    (∀ rn ∈ (sortDesc (recordNames fs)).drop keep.toNat, 0 < keep →
      (enforceRetention keep fs).1.lookup rn = none) := by
  unfold enforceRetention
  by_cases hk : keep ≤ 0
  · rw [if_pos hk]
    refine ⟨fun c hc => absurd hc (by simp), fun rn _ hpos => absurd hpos (by omega)⟩
  · rw [if_neg hk]
    constructor
    · exact foldl_evict_calls _ (fs, []) (fun c hc => absurd hc (by simp))
    · intro rn hmem _
      exact foldl_evict_removes _ (fs, []) rn hmem

/-- Witness for C10: with keep-count 1, the record whose `body_file` is
`../evil` is deleted, and in a run with an honest `body_file` the single
blob-unlink call names a validated direct child. -/
theorem c10_witness :
    (enforceRetention 1
        (⟨[("b.json".toList, .doc ⟨[], "x".toList, 1, [], false, .none⟩),
          ("a.json".toList, .doc ⟨[], "../evil".toList, 1, [], false, .none⟩),
          ("evil".toList, .bytes [9])]⟩ : FS Unit)).1.lookup "a.json".toList = none ∧
      (⟨"a.body".toList, true⟩ : UnlinkCall).name ≠ [] ∧
        blobNameBlocked ("a.body".toList) = false :=
  ⟨(c10_eviction_blob_validation 1 _).2 "a.json".toList (by decide) (by decide),
    (c10_eviction_blob_validation 2
      (⟨[("c.json".toList, .doc ⟨[], "c.body".toList, 1, [], false, .none⟩),
        ("b.json".toList, .doc ⟨[], "b.body".toList, 1, [], false, .none⟩),
        ("a.json".toList, .doc ⟨[], "a.body".toList, 1, [], false, .none⟩),
        ("a.body".toList, .bytes [1])]⟩ : FS Unit)).1 ⟨"a.body".toList, true⟩
      (by decide) rfl⟩

/-! ## C3 helper lemmas -/

theorem suffix_cancel {a b s1 s2 : Name} (hl : s1.length = s2.length)
    (h : a ++ s1 = b ++ s2) : s1 = s2 :=
  (List.append_inj' h hl).2

theorem rec_name_ne_body_name (a b : Name) : a ++ jsonExt ≠ b ++ bodyExt := by
  intro h
  exact absurd (suffix_cancel (by decide) h) (by decide)

theorem endsWith_append (ext x : Name) : endsWith ext (x ++ ext) = true := by
  simp [endsWith, List.suffix_append]

theorem not_endsWith_json_body (x : Name) : endsWith jsonExt (x ++ bodyExt) = false := by
  simp only [endsWith, decide_eq_false_iff_not]
  rintro ⟨u, hu⟩
  exact absurd (suffix_cancel (by decide) hu) (by decide)

theorem pairFiles_cons (s : Name × RecordDoc J × FData J)
    (l : List (Name × RecordDoc J × FData J)) :
    pairFiles (s :: l) = (s.1 ++ jsonExt, FData.doc s.2.1) ::
      (s.1 ++ bodyExt, s.2.2) :: pairFiles l := by
  simp [pairFiles]

theorem pairFiles_append (l1 l2 : List (Name × RecordDoc J × FData J)) :
    pairFiles (l1 ++ l2) = pairFiles l1 ++ pairFiles l2 := by
  simp [pairFiles]

theorem pairFiles_mem_name {p : Name × FData J}
    {l : List (Name × RecordDoc J × FData J)} (hp : p ∈ pairFiles l) :
    ∃ d ∈ l, p.1 = d.1 ++ jsonExt ∨ p.1 = d.1 ++ bodyExt := by
  rcases List.mem_flatMap.mp hp with ⟨d, hd, hmem⟩
  rcases List.mem_cons.mp hmem with rfl | hmem
  · exact ⟨d, hd, Or.inl rfl⟩
  · rcases List.mem_cons.mp hmem with rfl | hmem
    · exact ⟨d, hd, Or.inr rfl⟩
    · cases hmem

theorem recordNames_pairFiles (l : List (Name × RecordDoc J × FData J)) :
    recordNames (J := J) ⟨pairFiles l⟩ = l.map (fun s => s.1 ++ jsonExt) := by
  induction l with
  | nil => rfl
  | cons s rest ih =>
    unfold recordNames at ih ⊢
    rw [pairFiles_cons]
    simp only [List.map_cons, List.filter_cons]
    rw [endsWith_append, not_endsWith_json_body]
    simpa using ih

/-- Sorting an already strictly-descending name list with
`names.sort().reverse()` leaves it unchanged. -/
theorem sortDesc_eq_of_desc {l : List Name}
    (h : List.Pairwise (fun a b => b < a) l) : sortDesc l = l := by
  unfold sortDesc
  have hsorted1 : List.Sorted (· ≤ ·) (List.insertionSort (· ≤ ·) l) :=
    List.sorted_insertionSort (· ≤ ·) l
  have hsorted2 : List.Sorted (· ≤ ·) l.reverse := by
    rw [List.Sorted, List.pairwise_reverse]
    exact h.imp le_of_lt
  have hperm : (List.insertionSort (· ≤ ·) l).Perm l.reverse :=
    (List.perm_insertionSort (· ≤ ·) l).trans (List.reverse_perm l).symm
  rw [List.eq_of_perm_of_sorted hperm hsorted1 hsorted2, List.reverse_reverse]

theorem take_append_take (a l : List α) (n : Nat) :
    (a ++ l.take n).take n = (a ++ l).take n := by
  rw [List.take_append_eq_append_take, List.take_append_eq_append_take,
    List.take_take, min_eq_left (Nat.sub_le n a.length)]

theorem dropWhile_eq_self_of {p : Char → Bool} {l : List Char}
    (h : ∀ c ∈ l, p c = false) : l.dropWhile p = l := by
  cases l with
  | nil => rfl
  | cons c rest =>
    rw [List.dropWhile_cons, if_neg]
    simp [h c (by simp)]

theorem trimName_eq_self_of {l : Name} (h : ∀ c ∈ l, isWs c = false) :
    trimName l = l := by
  unfold trimName
  rw [dropWhile_eq_self_of h, dropWhile_eq_self_of (by simpa using h),
    List.reverse_reverse]

theorem simple_char_not_ws {c : Char} (hc : c.isAlphanum = true ∨ c = '-') :
    isWs c = false := by
  unfold isWs
  rw [decide_eq_false_iff_not]
  rintro (rfl | rfl | rfl | rfl | rfl | rfl) <;>
    rcases hc with hc | hc <;> exact absurd hc (by decide)

theorem simple_char_props {c : Char} (hc : c.isAlphanum = true ∨ c = '-') :
    isWs c = false ∧ c ≠ '.' ∧ c ≠ '/' ∧ c ≠ '\\' := by
  refine ⟨simple_char_not_ws hc, ?_, ?_, ?_⟩ <;>
    rintro rfl <;> rcases hc with hc | hc <;> exact absurd hc (by decide)

theorem simpleId_chars {id : Name} (hid : simpleId id = true) :
    ∀ c ∈ id, c.isAlphanum = true ∨ c = '-' := by
  unfold simpleId at hid
  rw [decide_eq_true_eq] at hid
  intro c hc
  have := hid.2
  rw [List.all_eq_true] at this
  have := this c hc
  rcases of_decide_eq_true this with h | h
  · exact Or.inl h
  · exact Or.inr h

theorem trim_simple_body {id : Name} (hid : simpleId id = true) :
    trimName (id ++ bodyExt) = id ++ bodyExt := by
  apply trimName_eq_self_of
  intro c hc
  rcases List.mem_append.mp hc with hc | hc
  · exact simple_char_not_ws (simpleId_chars hid c hc)
  · fin_cases hc <;> decide

theorem infix_pair_count {a : Char} {l : List Char} (h : [a, a] <:+: l) :
    2 ≤ l.count a := by
  rcases h with ⟨u, v, rfl⟩
  rw [List.count_append, List.count_append]
  have : List.count a [a, a] = 2 := by simp
  omega

theorem blob_name_not_blocked {id : Name} (hid : simpleId id = true) :
    blobNameBlocked (id ++ bodyExt) = false := by
  have hchars := simpleId_chars hid
  unfold blobNameBlocked
  have h1 : hasSub ['.', '.'] (id ++ bodyExt) = false := by
    simp only [hasSub, decide_eq_false_iff_not]
    intro hsub
    have hcount := infix_pair_count hsub
    rw [List.count_append] at hcount
    have hid0 : List.count '.' id = 0 := by
      rw [List.count_eq_zero]
      intro hmem
      exact (simple_char_props (hchars '.' hmem)).2.1 rfl
    have hbody : List.count '.' bodyExt = 1 := by decide
    omega
  have h2 : hasChar '/' (id ++ bodyExt) = false := by
    simp only [hasChar, decide_eq_false_iff_not, List.mem_append]
    rintro (hmem | hmem)
    · exact (simple_char_props (hchars '/' hmem)).2.2.1 rfl
    · exact absurd hmem (by decide)
  have h3 : hasChar '\\' (id ++ bodyExt) = false := by
    simp only [hasChar, decide_eq_false_iff_not, List.mem_append]
    rintro (hmem | hmem)
    · exact (simple_char_props (hchars '\\' hmem)).2.2.2 rfl
    · exact absurd hmem (by decide)
  rw [h1, h2, h3]
  rfl

theorem lookup_append_right {l1 l2 : List (Name × FData J)} {n : Name}
    (h : ∀ p ∈ l1, p.1 ≠ n) :
    FS.lookup (J := J) ⟨l1 ++ l2⟩ n = FS.lookup (J := J) ⟨l2⟩ n := by
  unfold FS.lookup
  rw [List.find?_append, List.find?_eq_none.mpr (fun p hp => by simpa using h p hp)]
  rfl

theorem filter_ne_all {l : List (Name × FData J)} {n : Name}
    (h : ∀ p ∈ l, p.1 ≠ n) : l.filter (fun p => p.1 ≠ n) = l :=
  List.filter_eq_self.mpr (fun p hp => by simpa using h p hp)

theorem pairFiles_names_ne {A : List (Name × RecordDoc J × FData J)}
    {w : Name × RecordDoc J × FData J}
    (hne : ∀ d ∈ A, (w.1 ++ jsonExt) < (d.1 ++ jsonExt)) :
    ∀ p ∈ pairFiles A, p.1 ≠ w.1 ++ jsonExt ∧ p.1 ≠ w.1 ++ bodyExt := by
  have hid : ∀ d ∈ A, d.1 ≠ w.1 := by
    intro d hd heq
    have := hne d hd
    rw [heq] at this
    exact lt_irrefl _ this
  intro p hp
  rcases pairFiles_mem_name hp with ⟨d, hd, hcase | hcase⟩
  · constructor
    · rw [hcase]
      intro heq
      exact hid d hd (List.append_inj' heq rfl).1
    · rw [hcase]
      exact rec_name_ne_body_name d.1 w.1
  · constructor
    · rw [hcase]
      intro heq
      exact rec_name_ne_body_name w.1 d.1 heq.symm
    · rw [hcase]
      intro heq
      exact hid d hd (List.append_inj' heq rfl).1

/-- Evicting the oldest record of a `pairFiles` directory removes exactly its
two files. -/
theorem evict_last {J : Type} (A : List (Name × RecordDoc J × FData J))
    (w : Name × RecordDoc J × FData J)
    (hgoodw : goodStep w)
    (hne : ∀ d ∈ A, (w.1 ++ jsonExt) < (d.1 ++ jsonExt)) :
    evictOne ((⟨pairFiles A ++ pairFiles [w]⟩ : FS J), []) (w.1 ++ jsonExt)
      = (⟨pairFiles A⟩, [⟨w.1 ++ jsonExt, false⟩, ⟨w.1 ++ bodyExt, true⟩]) := by
  have hnames := pairFiles_names_ne hne
  have hlookup : FS.lookup (J := J) ⟨pairFiles A ++ pairFiles [w]⟩ (w.1 ++ jsonExt)
      = some (.doc w.2.1) := by
    rw [lookup_append_right (fun p hp => (hnames p hp).1)]
    unfold FS.lookup
    rw [pairFiles_cons, List.find?_cons_of_pos _ (by simp)]
    rfl
  have hrecbody : w.1 ++ jsonExt ≠ w.1 ++ bodyExt := by
    intro heq
    exact absurd (suffix_cancel (by decide) heq) (by decide)
  have hunlink1 : (FS.unlink (J := J) ⟨pairFiles A ++ pairFiles [w]⟩ (w.1 ++ jsonExt))
      = ⟨pairFiles A ++ [(w.1 ++ bodyExt, w.2.2)]⟩ := by
    unfold FS.unlink
    rw [List.filter_append, filter_ne_all (fun p hp => (hnames p hp).1)]
    rw [pairFiles_cons]
    rw [List.filter_cons, if_neg (by simp), List.filter_cons,
      if_pos (by simpa using hrecbody.symm)]
    rfl
  have hunlink2 : (FS.unlink (J := J) ⟨pairFiles A ++ [(w.1 ++ bodyExt, w.2.2)]⟩
      (w.1 ++ bodyExt)) = ⟨pairFiles A⟩ := by
    unfold FS.unlink
    rw [List.filter_append, filter_ne_all (fun p hp => (hnames p hp).2)]
    rw [List.filter_cons, if_neg (by simp)]
    simp
  simp only [evictOne, hlookup]
  rw [hgoodw.2, trim_simple_body hgoodw.1]
  rw [if_neg (by simp [bodyExt]), if_neg (by rw [blob_name_not_blocked hgoodw.1]; simp)]
  rw [hunlink1, hunlink2]
  simp

/-- One full ingest-plus-retention step on a window directory: the new pair
is added and, when the window was full, exactly the oldest pair is evicted. -/
theorem retention_step {J : Type} (keep : Int) (hk : 0 < keep)
    (s : Name × RecordDoc J × FData J) (win : List (Name × RecordDoc J × FData J))
    (hgood : ∀ d ∈ s :: win, goodStep d)
    (hdesc : List.Pairwise (fun a b => (b.1 ++ jsonExt) < (a.1 ++ jsonExt)) (s :: win))
    (hlen : win.length ≤ keep.toNat) :
    (enforceRetention keep
      (((FS.mk (pairFiles win)).writeOver (s.1 ++ bodyExt) s.2.2).writeOver
        (s.1 ++ jsonExt) (.doc s.2.1))).1
      = ⟨pairFiles ((s :: win).take keep.toNat)⟩ := by
  have hgts : ∀ d ∈ win, (d.1 ++ jsonExt) < (s.1 ++ jsonExt) :=
    (List.pairwise_cons.mp hdesc).1
  have hids : ∀ d ∈ win, d.1 ≠ s.1 := by
    intro d hd heq
    have := hgts d hd
    rw [heq] at this
    exact lt_irrefl _ this
  have hnobody : ∀ p ∈ pairFiles win, p.1 ≠ s.1 ++ bodyExt := by
    intro p hp heq
    rcases pairFiles_mem_name hp with ⟨d, hd, hcase | hcase⟩
    · rw [hcase] at heq
      exact rec_name_ne_body_name d.1 s.1 heq
    · rw [hcase] at heq
      exact hids d hd (List.append_inj' heq rfl).1
  have hnorec : ∀ p ∈ pairFiles win, p.1 ≠ s.1 ++ jsonExt := by
    intro p hp heq
    rcases pairFiles_mem_name hp with ⟨d, hd, hcase | hcase⟩
    · rw [hcase] at heq
      exact hids d hd (List.append_inj' heq rfl).1
    · rw [hcase] at heq
      exact rec_name_ne_body_name s.1 d.1 heq.symm
  have hfresh1 : (FS.mk (pairFiles win) : FS J).lookup (s.1 ++ bodyExt) = none :=
    lookup_none_iff.mpr hnobody
  rw [writeOver_fresh _ hfresh1]
  have hfresh2 : (FS.mk ((s.1 ++ bodyExt, s.2.2) :: pairFiles win) : FS J).lookup
      (s.1 ++ jsonExt) = none := by
    rw [lookup_none_iff]
    intro p hp
    rcases List.mem_cons.mp hp with rfl | hp
    · exact fun heq => rec_name_ne_body_name s.1 s.1 heq.symm
    · exact hnorec p hp
  rw [writeOver_fresh _ hfresh2]
  have hpf : (FS.mk ((s.1 ++ jsonExt, FData.doc s.2.1) ::
      (s.1 ++ bodyExt, s.2.2) :: pairFiles win) : FS J) = ⟨pairFiles (s :: win)⟩ := by
    rw [pairFiles_cons]
  rw [hpf]
  unfold enforceRetention
  rw [if_neg (by omega), recordNames_pairFiles]
  have hdescm : List.Pairwise (fun a b => b < a)
      ((s :: win).map (fun d => d.1 ++ jsonExt)) :=
    List.pairwise_map.mpr hdesc
  rw [sortDesc_eq_of_desc hdescm]
  show (List.foldl evictOne ((⟨pairFiles (s :: win)⟩ : FS J), [])
      (List.drop keep.toNat ((s :: win).map (fun d => d.1 ++ jsonExt)))).1
    = (⟨pairFiles (List.take keep.toNat (s :: win))⟩ : FS J)
  have hNpos : 0 < keep.toNat := by omega
  rcases Nat.lt_or_ge win.length keep.toNat with hlt | hge
  · -- window not yet full: nothing is stale
    rw [List.drop_eq_nil_of_le (by simp only [List.length_map, List.length_cons]; omega)]
    rw [List.foldl_nil, List.take_of_length_le (by simp only [List.length_cons]; omega)]
  · -- window exactly full: evict the oldest pair
    have heqlen : win.length = keep.toNat := le_antisymm hlen hge
    have hne : win ≠ [] := by
      intro h
      rw [h] at heqlen
      simp at heqlen
      omega
    have hwin : win.dropLast ++ [win.getLast hne] = win :=
      List.dropLast_append_getLast hne
    have hlenA : (s :: win.dropLast).length = keep.toNat := by
      simp only [List.length_cons, List.length_dropLast]
      have : 1 ≤ win.length := List.length_pos.mpr hne
      omega
    have hcons : s :: win = (s :: win.dropLast) ++ [win.getLast hne] := by
      rw [List.cons_append, hwin]
    have hwlast : ∀ d ∈ s :: win.dropLast,
        ((win.getLast hne).1 ++ jsonExt) < (d.1 ++ jsonExt) := by
      intro d hd
      rcases List.mem_cons.mp hd with rfl | hd
      · exact hgts _ (List.getLast_mem hne)
      · have hsub : win.dropLast.Sublist win := by
          rw [List.dropLast_eq_take]
          exact List.take_sublist _ _
        have hpair : List.Pairwise (fun a b => (b.1 ++ jsonExt) < (a.1 ++ jsonExt)) win :=
          (List.pairwise_cons.mp hdesc).2
        rw [← hwin] at hpair
        rcases List.pairwise_append.mp hpair with ⟨_, _, hcross⟩
        exact hcross d (by exact hd) _ (by simp)
    have hstale : (((s :: win).map (fun d => d.1 ++ jsonExt)).drop keep.toNat)
        = [(win.getLast hne).1 ++ jsonExt] := by
      rw [hcons, List.map_append]
      have hlm : ((s :: win.dropLast).map (fun d => d.1 ++ jsonExt)).length
          = keep.toNat := by
        rw [List.length_map]
        exact hlenA
      rw [← hlm, List.drop_left]
      rfl
    rw [hstale, List.foldl_cons, List.foldl_nil]
    have hpfsplit : pairFiles (s :: win)
        = pairFiles (s :: win.dropLast) ++ pairFiles [win.getLast hne] := by
      rw [hcons, pairFiles_append]
    rw [hpfsplit]
    have hev := evict_last (s :: win.dropLast) (win.getLast hne)
      (hgood _ (by rw [hcons]; simp)) hwlast
    rw [hev]
    rw [hcons, ← hlenA, List.take_left]

/-- Folding a chronologically ordered batch of ingests over a window
directory keeps exactly the newest `keep` records. -/
theorem ingestSeq_window {J : Type} (keep : Int) (hk : 0 < keep) :
    ∀ (steps win : List (Name × RecordDoc J × FData J)),
      (∀ d ∈ win ++ steps, goodStep d) →
      List.Pairwise (fun a b => (a.1 ++ jsonExt) < (b.1 ++ jsonExt))
        (win.reverse ++ steps) →
      win.length ≤ keep.toNat →
      ingestSeq keep ⟨pairFiles win⟩ steps
        = ⟨pairFiles ((steps.reverse ++ win).take keep.toNat)⟩ := by
  intro steps
  induction steps with
  | nil =>
    intro win hgood hpair hlen
    simp only [ingestSeq, List.reverse_nil, List.nil_append]
    rw [List.take_of_length_le hlen]
  | cons s rest ih =>
    intro win hgood hpair hlen
    obtain ⟨sid, sdoc, sblob⟩ := s
    have hgoodsw : ∀ d ∈ (sid, sdoc, sblob) :: win, goodStep d := by
      intro d hd
      rcases List.mem_cons.mp hd with rfl | hd
      · exact hgood _ (by simp)
      · exact hgood _ (by simp [hd])
    have hcross : ∀ d ∈ win,
        (d.1 ++ jsonExt) < (sid, sdoc, sblob).1 ++ jsonExt := by
      intro d hd
      rcases List.pairwise_append.mp hpair with ⟨_, _, hc⟩
      exact hc d (by simpa using hd) _ (by simp)
    have hdesc : List.Pairwise (fun a b => (b.1 ++ jsonExt) < (a.1 ++ jsonExt))
        ((sid, sdoc, sblob) :: win) := by
      rw [List.pairwise_cons]
      refine ⟨hcross, ?_⟩
      have hwinrev : List.Pairwise (fun a b => (a.1 ++ jsonExt) < (b.1 ++ jsonExt))
          win.reverse := (List.pairwise_append.mp hpair).1
      rw [List.pairwise_reverse] at hwinrev
      exact hwinrev
    simp only [ingestSeq]
    rw [retention_step keep hk (sid, sdoc, sblob) win hgoodsw hdesc hlen]
    have hsub : (((sid, sdoc, sblob) :: win).take keep.toNat).Sublist
        ((sid, sdoc, sblob) :: win) := List.take_sublist _ _
    rw [ih (((sid, sdoc, sblob) :: win).take keep.toNat) ?hg ?hp ?hl]
    case hg =>
      intro d hd
      rcases List.mem_append.mp hd with hd | hd
      · exact hgoodsw d (hsub.mem hd)
      · exact hgood d (by simp [hd])
    case hp =>
      have hsubrev : ((((sid, sdoc, sblob) :: win).take keep.toNat).reverse ++ rest).Sublist
          ((win.reverse ++ [(sid, sdoc, sblob)]) ++ rest) := by
        refine List.Sublist.append ?_ (List.Sublist.refl rest)
        simpa using hsub.reverse
      apply List.Pairwise.sublist hsubrev
      have : win.reverse ++ (sid, sdoc, sblob) :: rest
          = (win.reverse ++ [(sid, sdoc, sblob)]) ++ rest := by
        rw [List.append_assoc]
        rfl
      rw [← this]
      exact hpair
    case hl =>
      rw [List.length_take]
      exact min_le_left _ _
    have hlists : (rest.reverse ++ ((sid, sdoc, sblob) :: win).take keep.toNat).take keep.toNat
        = (((sid, sdoc, sblob) :: rest).reverse ++ win).take keep.toNat := by
      rw [take_append_take]
      congr 1
      simp [List.append_assoc]
    exact congrArg (fun l => FS.mk (pairFiles l)) hlists

/-- C3: starting from an empty store, after `k` successful ingests with
distinct, chronologically increasing identifiers and keep-count `N > 0`,
exactly `min k N` record documents are listable and they are precisely the
`N` most recently ingested ones (newest first) — so no record inside the
keep-window is ever deleted; a keep-count `≤ 0` disables eviction entirely
(retention touches nothing and issues no unlink calls). -/
theorem c3_retention_keep_window {J : Type} (keep : Int)
    (steps : List (Name × RecordDoc J × FData J))
    (hgood : ∀ d ∈ steps, goodStep d)
    (hmono : List.Pairwise (fun a b => (a.1 ++ jsonExt) < (b.1 ++ jsonExt)) steps) :
    (0 < keep →
      recordNames (ingestSeq keep FS.empty steps)
        = (steps.reverse.take keep.toNat).map (fun s => s.1 ++ jsonExt) ∧
      (recordNames (ingestSeq keep FS.empty steps)).length
        = min steps.length keep.toNat) ∧
    (∀ fs : FS J, keep ≤ 0 → enforceRetention keep fs = (fs, [])) := by
  constructor
  · intro hk
    have happ := ingestSeq_window keep hk steps []
      (by rw [List.nil_append]; exact hgood)
      (by rw [List.reverse_nil, List.nil_append]; exact hmono)
      (Nat.zero_le _)
    have hfse : (FS.empty : FS J) = ⟨pairFiles []⟩ := rfl
    rw [hfse, happ, recordNames_pairFiles]
    constructor
    · rw [List.append_nil]
    · rw [List.length_map, List.length_take]
      simp [min_comm]
  · intro fs hle
    unfold enforceRetention
    rw [if_pos hle]

/-- Concrete two-ingest run used by the retention witness. -/
def c3Steps : List (Name × RecordDoc Unit × FData Unit) :=
  [("a".toList, ⟨[], "a.body".toList, 1, [], false, .none⟩, .bytes [1]),
   ("b".toList, ⟨[], "b.body".toList, 1, [], false, .none⟩, .bytes [2])]

/-- Witness for C3: two ingests with keep-count 1 retain exactly the second,
and a negative keep-count leaves retention inert. -/
theorem c3_witness :
    (recordNames (ingestSeq 1 FS.empty c3Steps)
        = (c3Steps.reverse.take (Int.toNat 1)).map (fun s => s.1 ++ jsonExt) ∧
      (recordNames (ingestSeq 1 FS.empty c3Steps)).length
        = min c3Steps.length (Int.toNat 1)) ∧
      enforceRetention (-1) (FS.empty : FS Unit) = (FS.empty, []) :=
  ⟨(c3_retention_keep_window 1 c3Steps
      (by intro d hd; fin_cases hd <;> exact ⟨by decide, by decide⟩)
      (by decide)).1 (by decide),
    (c3_retention_keep_window (-1) c3Steps
      (by intro d hd; fin_cases hd <;> exact ⟨by decide, by decide⟩)
      (by decide)).2 FS.empty (by decide)⟩

end Stockhook
